import Mathlib

/-!
Verification of the RFC 9535 JSONPath implementation (theory/jsonpath).

The Go sources are shallowly embedded: the generic JSON tree (`any` values
holding `nil | bool | int64 | float64 | string | []any | map[string]any`)
becomes the inductive `JVal`; Go interface values become `Option`-wrapped
sums; Go panics become `Except.error`; Go's open interfaces (`Selector`,
`basicExpr`) become function-record types. Pieces of the repository whose
source files are not available (the concrete selector evaluation and slice
bounds code) are modelled from the specification and checked against the
pinned test values that are available.
-/

namespace JsonPath

/-- A parsed JSON value, embedding the Go dynamic representation used by the
evaluator: `nil | bool | int64 | float64 | string | []any | map[string]any`.
Go's `nil` is `JVal.null`; the many Go integer widths collapse onto `Int` and
`float64` onto `ℚ` (only equality with zero matters for the claims below).
Object members keep their insertion order as an association list; Go map
iteration order is unspecified, so theorems about objects describe one
admissible order. -/
inductive JVal where
  | null
  | bool (b : Bool)
  | int (n : Int)
  | float (q : ℚ)
  | str (s : String)
  | arr (elems : List JVal)
  | obj (members : List (String × JVal))

/-- Member values of an array or object; any other value has none. Used by
descendant traversal (`Segment.descend` iterates array elements and object
values). -/
def JVal.children : JVal → List JVal
  | .arr elems => elems
  | .obj members => members.map (·.2)
  | _ => []

/-- PathType represents a path type (src/unnamed/part_003, `PathType`). -/
inductive PathType where
  | PathValue
  | PathLogical
  | PathNodes
deriving DecidableEq

/-- FuncType defines the different types of function arguments and return
values (src/unnamed/part_003, `FuncType`). -/
inductive FuncType where
  | FuncLiteral
  | FuncSingularQuery
  | FuncValue
  | FuncNodeList
  | FuncLogical
deriving DecidableEq

/-- convertsTo returns true if a function argument of type ft can be
converted to pv (src/unnamed/part_003 lines 56-69). The Go `default`
branch returning `false` is unreachable because the match below is total
over the enum. -/
def FuncType.convertsTo (ft : FuncType) (pv : PathType) : Bool :=
  match ft with
  | .FuncLiteral => pv == .PathValue
  | .FuncValue => pv == .PathValue
  | .FuncSingularQuery => true
  | .FuncNodeList => pv != .PathValue
  | .FuncLogical => pv == .PathLogical

/-- Modelled from the spec: the five-kinds-by-three-targets convertibility
table of spec.md section 3, written out row by row so that it can be
compared against `FuncType.convertsTo` from the source. -/
def convertsToSpecTable (ft : FuncType) (pv : PathType) : Bool :=
  match ft, pv with
  | .FuncLiteral, .PathValue => true
  | .FuncLiteral, .PathLogical => false
  | .FuncLiteral, .PathNodes => false
  | .FuncSingularQuery, .PathValue => true
  | .FuncSingularQuery, .PathLogical => true
  | .FuncSingularQuery, .PathNodes => true
  | .FuncValue, .PathValue => true
  | .FuncValue, .PathLogical => false
  | .FuncValue, .PathNodes => false
  | .FuncNodeList, .PathValue => false
  | .FuncNodeList, .PathLogical => true
  | .FuncNodeList, .PathNodes => true
  | .FuncLogical, .PathValue => false
  | .FuncLogical, .PathLogical => true
  | .FuncLogical, .PathNodes => false

/-- ValueType encapsulates a JSON value (src/unnamed/part_003 lines
154-159). The Go struct embeds an `any` field; a JSON `null` stored in it is
`JVal.null`. A nil `*ValueType` pointer is represented by `Option.none`
at use sites. -/
structure ValueType where
  any : JVal

/-- A JSONPathValue: the interface implemented by `NodesType`,
`LogicalType` and `*ValueType` (src/unnamed/part_003). A Go `nil` interface
value is `Option.none` at use sites. -/
inductive JSONPathValue where
  | nodes (ns : List JVal)
  | logical (b : Bool)
  | value (vt : ValueType)

/-- newValueTypeFrom attempts to convert value to a ValueType
(src/unnamed/part_003 lines 167-176). A nil interface input yields a nil
`*ValueType` pointer (`Option.none`); a `NodesType` or `LogicalType` input
panics, modelled as `Except.error`. -/
def newValueTypeFrom : Option JSONPathValue → Except String (Option ValueType)
  | some (.value vt) => .ok (some vt)
  | none => .ok none
  | some (.nodes _) => .error "unexpected argument of type spec.NodesType"
  | some (.logical _) => .error "unexpected argument of type spec.LogicalType"

/-- Dereference of the `.any` field through a `*ValueType` pointer. Go
panics with a nil pointer dereference when the pointer is nil; the panic is
modelled as `Except.error`. -/
def derefAny : Option ValueType → Except String JVal
  | none => .error "runtime error: invalid memory address or nil pointer dereference"
  | some vt => .ok vt.any

/-- ValueType.testFilter returns true if vt.any is truthy (src/unnamed/part_003
lines 179-212). The Go switch enumerates every numeric width with a
`!= 0` test; those cases collapse onto the `int` and `float` cases here.
Strings, arrays and objects fall into the Go `default` branch, which
returns true. -/
def ValueType.testFilter (vt : ValueType) : Bool :=
  match vt.any with
  | .null => false
  | .bool b => b
  | .int n => n != 0
  | .float q => q != 0
  | _ => true

/-- FunctionExpr.testFilter dispatch on the result of executing the function
(src/unnamed/part_003 lines 734-745): a `NodesType` result is truthy iff
non-empty, a `*ValueType` result defers to `ValueType.testFilter`, a
`LogicalType` result is its boolean, and anything else (a nil interface)
is false. -/
def functionResultTestFilter : Option JSONPathValue → Bool
  | some (.nodes ns) => ns.length > 0
  | some (.value vt) => vt.testFilter
  | some (.logical b) => b
  | none => false

/-- Modelled from the spec: the truthiness of a bare function call's `Value`
result as the claim words it — "any non-zero number, any non-empty
collection, any non-nil non-false scalar — nil and `false` are falsy". -/
def truthyValueSpec : JVal → Bool
  | .null => false
  | .bool b => b
  | .int n => n != 0
  | .float q => q != 0
  | .str _ => true
  | .arr elems => elems.length > 0
  | .obj members => members.length > 0

/-- The truthiness of a `Value` result as the code actually computes it,
stated flatly: nil and `false` and zero numbers are falsy, and every
string, array and object — including empty ones — is truthy. -/
def truthyValueAmended : JVal → Bool
  | .null => false
  | .bool b => b
  | .int n => n != 0
  | .float q => q != 0
  | .str _ => true
  | .arr _ => true
  | .obj _ => true

/-- Concatenation of the lists produced by f over l, in order. Used to state
the pre-order characterization of descendant segments. -/
def concatMap (f : α → List β) : List α → List β
  | [] => []
  | a :: rest => f a ++ concatMap f rest

/-- The Go `Selector` interface (segment.go): anything with a
`Select(current, root) []any` method. -/
structure SelectorI where
  select : JVal → JVal → List JVal

/-- Segment represents a single segment in an RFC 9535 JSONPath query
(segment.go lines 9-12). -/
structure Segment where
  selectors : List SelectorI
  descendant : Bool

/-- The selector loop of `Segment.Select` (segment.go lines 53-56): start
from an empty list and append each selector's results in selector order. -/
def applySelectors (sels : List SelectorI) (current root : JVal) : List JVal :=
  sels.foldl (fun ret sel => ret ++ sel.select current root) []

mutual

/-- Select selects and returns values from current or root for each of seg's
selectors (segment.go lines 52-61): the selector results on current,
followed by the descendant results when the segment is a descendant
segment. -/
def Segment.Select (s : Segment) (current root : JVal) : List JVal :=
  applySelectors s.selectors current root
    ++ (if s.descendant then Segment.descend s current root else [])
termination_by 2 * sizeOf current + 1

/-- descend recursively executes seg.Select for each value in current
(segment.go lines 65-78): array elements in order, object member values in
the embedding's member order. -/
def Segment.descend (s : Segment) (current root : JVal) : List JVal :=
  match current with
  | .arr elems => Segment.descendList s elems root
  | .obj members => Segment.descendMembers s members root
  | _ => []
termination_by 2 * sizeOf current

/-- The array-element loop of `Segment.descend`. -/
def Segment.descendList (s : Segment) (elems : List JVal) (root : JVal) : List JVal :=
  match elems with
  | [] => []
  | v :: rest => Segment.Select s v root ++ Segment.descendList s rest root
termination_by 2 * sizeOf elems

/-- The object-member loop of `Segment.descend`. -/
def Segment.descendMembers (s : Segment) (members : List (String × JVal)) (root : JVal) :
    List JVal :=
  match members with
  | [] => []
  | (_, v) :: rest => Segment.Select s v root ++ Segment.descendMembers s rest root
termination_by 2 * sizeOf members

end

mutual

/-- The pre-order node traversal of a JSON value: the value itself first,
then the pre-order traversals of its members, in member order. -/
def preorder (v : JVal) : List JVal :=
  v :: preorderChildren v
termination_by 2 * sizeOf v + 1

/-- Pre-order traversals of the members of v, concatenated. -/
def preorderChildren (v : JVal) : List JVal :=
  match v with
  | .arr elems => preorderList elems
  | .obj members => preorderMembers members
  | _ => []
termination_by 2 * sizeOf v

/-- The array-element loop of `preorderChildren`. -/
def preorderList (elems : List JVal) : List JVal :=
  match elems with
  | [] => []
  | v :: rest => preorder v ++ preorderList rest
termination_by 2 * sizeOf elems

/-- The object-member loop of `preorderChildren`. -/
def preorderMembers (members : List (String × JVal)) : List JVal :=
  match members with
  | [] => []
  | (_, v) :: rest => preorder v ++ preorderMembers rest
termination_by 2 * sizeOf members

end

/-- Modelled from the spec: a slice selector `<start>:<end>:<step>` with
optional start and end (spec.md section 3); the selector source file is not
under src/, only its tests are. `none` records an omitted parameter. -/
structure SliceSelector where
  start : Option Int
  end_ : Option Int
  step : Int

/-- Modelled from the spec: normalization of a possibly-negative index
against length n — `if x < 0 then x + n else x` (spec.md section 4.3). -/
def normalizeIdx (x n : Int) : Int :=
  if x < 0 then x + n else x

/-- Modelled from the spec: clamping of a bound into `[lo, hi]`
(spec.md section 4.3). -/
def clampIdx (x lo hi : Int) : Int :=
  if x < lo then lo else if x > hi then hi else x

/-- Modelled from the spec: the slice bounds formula of spec.md section 4.3
(the `bounds` method exercised by TestSliceBounds in src/unnamed/part_000).
For positive step the normalized-or-default endpoints are clamped to
`[0, n]`; for negative step to `[-1, n-1]` with start and end swapped; for
step 0 the test pins `(0, 0)`. -/
def SliceSelector.bounds (s : SliceSelector) (length : Nat) : Int × Int :=
  let n : Int := length
  if s.step > 0 then
    (clampIdx ((s.start.map (fun x => normalizeIdx x n)).getD 0) 0 n,
     clampIdx ((s.end_.map (fun x => normalizeIdx x n)).getD n) 0 n)
  else if s.step < 0 then
    (clampIdx ((s.end_.map (fun x => normalizeIdx x n)).getD (-1)) (-1) (n - 1),
     clampIdx ((s.start.map (fun x => normalizeIdx x n)).getD (n - 1)) (-1) (n - 1))
  else (0, 0)

/-- Iteration indices of a positive-step slice: from i upward while
`i < upper`, advancing by step. The fuel argument only bounds the number of
iterations; callers pass at least `upper - lower + 1`, enough for any
step ≥ 1. -/
def stepUpFrom (fuel : Nat) (i upper step : Int) : List Int :=
  match fuel with
  | 0 => []
  | fuel + 1 => if i < upper then i :: stepUpFrom fuel (i + step) upper step else []

/-- Iteration indices of a negative-step slice: from i downward while
`i > lower`, advancing by step (negative). -/
def stepDownFrom (fuel : Nat) (i lower step : Int) : List Int :=
  match fuel with
  | 0 => []
  | fuel + 1 => if i > lower then i :: stepDownFrom fuel (i + step) lower step else []

/-- Modelled from the spec: slice selection over an array (spec.md section
4.3 step 5, and the `extract` loop of TestSliceBounds): positive step
iterates i from lower upward while `i < upper`, negative step iterates i
from upper downward while `i > lower`, step 0 selects nothing; any
non-array input selects nothing. -/
def SliceSelector.Select (s : SliceSelector) (current : JVal) : List JVal :=
  match current with
  | .arr elems =>
    let lu := s.bounds elems.length
    if s.step > 0 then
      (stepUpFrom ((lu.2 - lu.1).toNat + 1) lu.1 lu.2 s.step).map
        (fun i => elems.getD i.toNat .null)
    else if s.step < 0 then
      (stepDownFrom ((lu.2 - lu.1).toNat + 1) lu.2 lu.1 s.step).map
        (fun i => elems.getD i.toNat .null)
    else []
  | _ => []

/-- The Name and Index selectors that may appear in a singular query
(src/unnamed/part_003 lines 580-586: "The query Name and/or Index
selectors"). -/
inductive NISelector where
  | name (s : String)
  | index (i : Int)

/-- The first member value bound to key k, scanning members in order. -/
def lookupMember (k : String) : List (String × JVal) → Option JVal
  | [] => none
  | (k2, v) :: rest => if k2 = k then some v else lookupMember k rest

/-- Modelled from the spec: Name selection (spec.md section 4.3) — on an
object, the value under the key if present, else nothing; on anything
else, nothing. The selector source file is not under src/. -/
def nameSelect (s : String) (current : JVal) : List JVal :=
  match current with
  | .obj members =>
    match lookupMember s members with
    | some v => [v]
    | none => []
  | _ => []

/-- Modelled from the spec: Index selection (spec.md section 4.3) — on an
array of length n, resolve `j = i` if `i ≥ 0` else `n + i`, and yield the
element when `0 ≤ j < n`; on anything else, nothing. -/
def indexSelect (i : Int) (current : JVal) : List JVal :=
  match current with
  | .arr elems =>
    let j := if i ≥ 0 then i else elems.length + i
    if 0 ≤ j ∧ j < elems.length then [elems.getD j.toNat .null] else []
  | _ => []

/-- Dispatch of `Selector.Select` over the two singular selector forms. -/
def NISelector.select : NISelector → JVal → List JVal
  | .name s, v => nameSelect s v
  | .index i, v => indexSelect i v

/-- singularQuery represents a query that produces a single node or nothing
(src/unnamed/part_003 lines 580-586). -/
structure SingularPathQuery where
  relative : Bool
  selectors : List NISelector

/-- The selector loop of singularQuery.execute (src/unnamed/part_003 lines
598-606): select on the value reached so far; if the result is empty the
whole query yields nothing, otherwise continue from the first (only)
selected node. -/
def sqWalk : List NISelector → JVal → Option JVal
  | [], target => some target
  | sel :: rest, target =>
    match sel.select target with
    | [] => none
    | x :: _ => sqWalk rest x

/-- singularQuery.execute (src/unnamed/part_003 lines 592-607): walk the
selectors from the root value for an absolute query or the current value
for a relative one. -/
def SingularPathQuery.execute (sq : SingularPathQuery) (current root : JVal) : Option JVal :=
  sqWalk sq.selectors (if sq.relative then current else root)

/-- Direct single-node access for one singular selector, used as the
independent formulation of "the one JSON value reached": a Name reads the
object member, an Index reads the array element at the normalized
position. -/
def directStep : NISelector → JVal → Option JVal
  | .name s, .obj members => lookupMember s members
  | .name _, _ => none
  | .index i, .arr elems =>
    let j := if i ≥ 0 then i else elems.length + i
    if 0 ≤ j then elems[j.toNat]? else none
  | .index _, _ => none

/-- The Go `basicExpr` interface (src/unnamed/part_001 lines 8-13):
anything with a `testFilter(current, root) bool` method. -/
structure BasicExprI where
  testFilter : JVal → JVal → Bool

/-- LogicalAndExpr represents a list of one or more expressions ANDed
together by the && operator (src/unnamed/part_001 line 17). -/
def LogicalAndExpr := List BasicExprI

/-- LogicalAndExpr.testFilter (src/unnamed/part_001 lines 22-29): true if
all expressions return true, short-circuiting on the first false. -/
def LogicalAndExpr.testFilter : LogicalAndExpr → JVal → JVal → Bool
  | [], _, _ => true
  | e :: rest, current, root =>
    if e.testFilter current root then LogicalAndExpr.testFilter rest current root else false

/-- LogicalOrExpr represents a list of one or more expressions ORed
together by the || operator (src/unnamed/part_001 line 43). -/
def LogicalOrExpr := List LogicalAndExpr

/-- LogicalOrExpr.testFilter (src/unnamed/part_001 lines 45-52): true if
any subexpression returns true, short-circuiting on the first true. -/
def LogicalOrExpr.testFilter : LogicalOrExpr → JVal → JVal → Bool
  | [], _, _ => false
  | e :: rest, current, root =>
    if e.testFilter current root then true else LogicalOrExpr.testFilter rest current root

/-- Modelled from the spec: Filter selection (spec.md section 4.3) — on an
array, the elements for which the filter expression is truthy with the
element as the current node; on an object, the member values likewise; on
anything else, nothing. The Filter selector source file is not under src/
(its behaviour is pinned by TestFilterSelector in src/unnamed/part_000). -/
def filterSelect (lo : LogicalOrExpr) (current root : JVal) : List JVal :=
  match current with
  | .arr elems => elems.filter (fun v => lo.testFilter v root)
  | .obj members => (members.map (·.2)).filter (fun v => lo.testFilter v root)
  | _ => []

/-- A lexer token as consumed by the parser: its text and 0-based
position. -/
structure Token where
  val : String
  pos : Nat

/-- makeError (src/unnamed/part_002 lines 14-16): a jsonpath error message
with the token's 1-based position. -/
def makeErrorMsg (tok : Token) (msg : String) : String :=
  "jsonpath: " ++ msg ++ " at position " ++ toString (tok.pos + 1)

/-- Go's `%q` rendering of a plain string (no escapes needed for the
strings that occur here). -/
def quoteGo (s : String) : String :=
  "\"" ++ s ++ "\""

/-- Decimal value of a digit list, most significant first. -/
def digitsVal (cs : List Char) : Nat :=
  cs.foldl (fun a c => a * 10 + (c.toNat - 48)) 0

/-- The shapes accepted by Go's strconv.ParseInt base 10: an optional sign
followed by one or more digits. -/
def goIntShapeOk (cs : List Char) : Bool :=
  match cs with
  | [] => false
  | c :: rest =>
    if c = '-' ∨ c = '+' then !rest.isEmpty && rest.all Char.isDigit
    else c.isDigit && rest.all Char.isDigit

/-- Signed decimal value of a token accepted by `goIntShapeOk`. -/
def goSignedVal (cs : List Char) : Int :=
  match cs with
  | [] => 0
  | c :: rest =>
    if c = '-' then -(digitsVal rest : Int)
    else if c = '+' then (digitsVal rest : Int)
    else (digitsVal (c :: rest) : Int)

/-- The two strconv.NumError causes relevant here. -/
inductive NumErrorKind where
  | outOfRange
  | invalidShape
deriving DecidableEq

/-- Go's strconv.ParseInt(s, 10, 64) on a character list: an optional sign
and digits, with the value required to fit in int64. On failure the error
kind feeds makeNumErr's message ("value out of range" / "invalid
syntax"). -/
def strconvParseIntL (cs : List Char) : Except NumErrorKind Int :=
  if goIntShapeOk cs then
    let v := goSignedVal cs
    if v < -(2 ^ 63) ∨ v > 2 ^ 63 - 1 then .error .outOfRange else .ok v
  else .error .invalidShape

/-- Go's strconv.ParseInt(s, 10, 64). -/
def strconvParseInt (s : String) : Except NumErrorKind Int :=
  strconvParseIntL s.toList

/-- parsePathInt (src/unnamed/part_002 lines 214-235): reject the literal
text "-0", then parse via strconv.ParseInt, then range-check against
`[-(2^53)+1, 2^53-1]`. -/
def parsePathInt (tok : Token) : Except String Int :=
  if tok.val = "-0" then
    .error (makeErrorMsg tok ("invalid integer path value " ++ quoteGo tok.val))
  else
    match strconvParseInt tok.val with
    | .error .outOfRange =>
      .error (makeErrorMsg tok ("cannot parse " ++ quoteGo tok.val ++ ", value out of range"))
    | .error .invalidShape =>
      .error (makeErrorMsg tok ("cannot parse " ++ quoteGo tok.val ++ ", invalid syntax"))
    | .ok idx =>
      if idx > 2 ^ 53 - 1 ∨ idx < -(2 ^ 53) + 1 then
        .error (makeErrorMsg tok ("cannot parse " ++ quoteGo tok.val ++ ", value out of range"))
      else
        .ok idx

/-- The digit part of a lexer integer token (spec.md section 4.1: JSON
numbers, so "0" alone or a nonzero first digit; no leading zeros). -/
def isJSONIntDigits (cs : List Char) : Bool :=
  match cs with
  | [] => false
  | c :: rest => (c == '0' && rest.isEmpty) || (c.isDigit && c != '0' && rest.all Char.isDigit)

/-- Whether cs is the text of a lexer integer token: an optional leading
'-' and JSON integer digits ("-0" is lexed as an integer and left for the
parser to reject). -/
def intTokenShape : List Char → Bool
  | [] => false
  | c :: rest => if c = '-' then isJSONIntDigits rest else isJSONIntDigits (c :: rest)

/-- Whether s is a lexer integer token. -/
def isIntegerToken (s : String) : Bool :=
  intTokenShape s.toList

/-- The mathematical value of an integer token given as characters. -/
def intTokenValL : List Char → Int
  | [] => 0
  | c :: rest => if c = '-' then -(digitsVal rest : Int) else (digitsVal (c :: rest) : Int)

/-- The mathematical value of an integer token. -/
def tokenIntVal (s : String) : Int :=
  intTokenValL s.toList

/-- The possible outcomes of parseFunctionFilterExpr, with the parse error
carried as a message. -/
inductive FuncExprOutcome where
  | bareFunction
  | comparisonExpr
  | err (msg : String)
deriving DecidableEq

/-- Whether c starts a comparison operator — the `'=', '!', '<', '>'`
cases of the switch in parseFunctionFilterExpr. -/
def isCompOpStart (c : Char) : Bool :=
  c == '=' || c == '!' || c == '<' || c == '>'

/-- parseFunctionFilterExpr (src/unnamed/part_002 lines 415-432), with the
already-parsed function abstracted to its declared result type and the
lexer abstracted to the next non-blank lookahead character: a Logical
function stands alone; otherwise a comparison must follow, else the parse
fails with "missing comparison to function result". -/
def parseFunctionFilterExpr (resultType : FuncType) (next : Char) : FuncExprOutcome :=
  if resultType == .FuncLogical then .bareFunction
  else if isCompOpStart next then .comparisonExpr
  else .err "missing comparison to function result"

/-- The identifier case of parseComparableVal (src/unnamed/part_002 lines
646-657), with the parsed function abstracted to its declared result type:
a Logical-typed function is rejected as a comparable. -/
def parseComparableValFunction (resultType : FuncType) : Except String Unit :=
  if resultType == .FuncLogical then .error "cannot compare result of logical function"
  else .ok ()

/-- Abstract syntax for the regular-expression fragment needed by the match
and search claims: characters, the any-character node produced for `.`
under the DotNL flag, the RFC 9485 replacement class `[^\n\r]`, the `\A`
and `\z` anchors, concatenation and alternation. -/
inductive Reg where
  | eps
  | char (c : Char)
  | anyChar
  | notNL
  | beginText
  | endText
  | seq (a b : Reg)
  | alt (a b : Reg)

/-- Parse a sequence of atoms of the fragment: `\A`, `\z`, `.`, or a plain
alphanumeric character. Anything else is outside the modelled fragment and
yields none. -/
def parseAtoms : List Char → Option (List Reg)
  | [] => some []
  | '\\' :: 'A' :: rest => (parseAtoms rest).map (fun l => .beginText :: l)
  | '\\' :: 'z' :: rest => (parseAtoms rest).map (fun l => .endText :: l)
  | '.' :: rest => (parseAtoms rest).map (fun l => .anyChar :: l)
  | c :: rest => if c.isAlphanum then (parseAtoms rest).map (fun l => .char c :: l) else none

/-- Split a pattern at top-level `|` characters: alternation has the lowest
precedence, exactly as in Go's regexp/syntax parser. -/
def splitAlt : List Char → List (List Char)
  | [] => [[]]
  | '|' :: rest => [] :: splitAlt rest
  | c :: rest =>
    match splitAlt rest with
    | [] => [[c]]
    | g :: gs => (c :: g) :: gs

/-- Concatenation of a list of nodes. -/
def seqOfList : List Reg → Reg
  | [] => .eps
  | r :: rest => .seq r (seqOfList rest)

/-- Alternation of a non-empty list of branches. -/
def altOfList : List Reg → Reg
  | [] => .eps
  | [r] => r
  | r :: rest => .alt r (altOfList rest)

/-- Parse a pattern of the fragment the way Go's syntax.Parse with
Perl|DotNL sees it: alternation of concatenations of atoms. -/
def parsePattern (s : String) : Option Reg :=
  ((splitAlt s.toList).mapM parseAtoms).map (fun seqs => altOfList (seqs.map seqOfList))

/-- replaceDot (src/unnamed/part_003 lines 495-503): rewrite every
any-character node to the class `[^\n\r]`, recursing into subexpressions. -/
def replaceDot : Reg → Reg
  | .anyChar => .notNL
  | .seq a b => .seq (replaceDot a) (replaceDot b)
  | .alt a b => .alt (replaceDot a) (replaceDot b)
  | r => r

/-- compileRegex (src/unnamed/part_003 lines 477-489): parse with the
DotNL flag, rewrite dots, and return the compiled regex, or none when the
pattern does not compile (or falls outside the modelled fragment). -/
def compileRegex (str : String) : Option Reg :=
  (parsePattern str).map replaceDot

/-- Whether r matches the span `[i, j)` of cs, with the `\A` and `\z`
anchors interpreted against the whole of cs. -/
def matchSpan (cs : List Char) : Reg → Nat → Nat → Bool
  | .eps, i, j => i == j
  | .char c, i, j => j == i + 1 && cs.get? i == some c
  | .anyChar, i, j => j == i + 1 && (cs.get? i).isSome
  | .notNL, i, j =>
    j == i + 1 &&
      (match cs.get? i with
        | some c => !(c == '\n' || c == '\r')
        | none => false)
  | .beginText, i, j => i == j && i == 0
  | .endText, i, j => i == j && i == cs.length
  | .seq a b, i, j =>
    (List.range (j + 1)).any (fun k => decide (i ≤ k) && matchSpan cs a i k && matchSpan cs b k j)
  | .alt a b, i, j => matchSpan cs a i j || matchSpan cs b i j

/-- Go's Regexp.MatchString as a boolean: whether any span of s matches r. -/
def matchString (r : Reg) (s : String) : Bool :=
  (List.range (s.toList.length + 1)).any fun i =>
    (List.range (s.toList.length + 1)).any fun j =>
      decide (i ≤ j) && matchSpan s.toList r i j

/-- Modelled from the spec: "returns whether `pat` matches `s` fully
(anchored `\A…\z`)" — compile pat under the I-Regexp adaptation and test it
against the whole of s; none when pat does not compile. -/
def fullMatchSpec (pat s : String) : Option Bool :=
  (compileRegex pat).map (fun r => matchSpan s.toList r 0 s.toList.length)

/-- matchFunc (src/unnamed/part_003 lines 422-431): the anchors are added
by string concatenation before compiling, and each operand is reached
through `newValueTypeFrom(jv[i]).any`, whose dereference panics on a nil
`*ValueType` (modelled as `Except.error`). -/
def matchFunc (jv0 jv1 : Option JSONPathValue) : Except String JSONPathValue := do
  let p0 ← newValueTypeFrom jv0
  let a0 ← derefAny p0
  match a0 with
  | .str v =>
    let p1 ← newValueTypeFrom jv1
    let a1 ← derefAny p1
    match a1 with
    | .str r =>
      match compileRegex ("\\A" ++ r ++ "\\z") with
      | some rc => pure (.logical (matchString rc v))
      | none => pure (.logical false)
    | _ => pure (.logical false)
  | _ => pure (.logical false)

/-- searchFunc (src/unnamed/part_003 lines 461-470): as matchFunc but the
pattern is compiled unanchored. -/
def searchFunc (jv0 jv1 : Option JSONPathValue) : Except String JSONPathValue := do
  let p0 ← newValueTypeFrom jv0
  let a0 ← derefAny p0
  match a0 with
  | .str v =>
    let p1 ← newValueTypeFrom jv1
    let a1 ← derefAny p1
    match a1 with
    | .str r =>
      match compileRegex r with
      | some rc => pure (.logical (matchString rc v))
      | none => pure (.logical false)
    | _ => pure (.logical false)
  | _ => pure (.logical false)

/-- The seven-element array `["a","b","c","d","e","f","g"]` that
TestSliceBounds (src/unnamed/part_000) extracts slices from. -/
def sliceTestArray : JVal :=
  .arr [.str "a", .str "b", .str "c", .str "d", .str "e", .str "f", .str "g"]

/-!
Theorems. Each claim of the specification audit is settled by exactly one
theorem below; helper lemmas carry the inductive work.
-/

/-- C5: the parse-time argument-kind convertibility relation of
`FuncType.convertsTo` is exactly the spec table: Literal and Value convert
only to Value; SingularQuery converts to Value, Logical and Nodes;
NodeList converts to Logical and Nodes but not Value; Logical converts
only to Logical. -/
theorem convertsTo_is_spec_table_c5 :
    ∀ (ft : FuncType) (pv : PathType), ft.convertsTo pv = convertsToSpecTable ft pv := by
  intro ft pv
  cases ft <;> cases pv <;> rfl

/-- C6: a function call whose declared result type is not Logical and that
is not followed by a comparison operator is a parse error with message
"missing comparison to function result", and a function whose declared
result type is Logical is rejected as a comparison operand. -/
theorem function_result_discipline_c6 :
    (∀ (rt : FuncType) (next : Char), rt ≠ .FuncLogical → isCompOpStart next = false →
      parseFunctionFilterExpr rt next = .err "missing comparison to function result")
    ∧ parseComparableValFunction .FuncLogical
        = .error "cannot compare result of logical function" := by
  constructor
  · intro rt next h1 h2
    simp [parseFunctionFilterExpr, beq_iff_eq, h1, h2]
  · rfl

/-- Witness for C6 at a concrete input: the `value()` result type with a
`]` lookahead is neither Logical nor a comparison start, and the parse
error fires. -/
theorem function_result_discipline_c6_witness :
    parseFunctionFilterExpr .FuncValue ']' = .err "missing comparison to function result" :=
  function_result_discipline_c6.1 .FuncValue ']' (by decide) (by decide)

/-- C1 evaluation at the failing input: when either operand of match() or
search() is *nothing* (a nil JSONPathValue), the Go code dereferences the
nil `*ValueType` returned by newValueTypeFrom and panics, instead of
returning LogicalFalse as the claim and the function's own documentation
state. -/
theorem match_search_nothing_panics_c1 :
    matchFunc none (some (.value ⟨.str "a"⟩))
        = .error "runtime error: invalid memory address or nil pointer dereference"
    ∧ matchFunc (some (.value ⟨.str "a"⟩)) none
        = .error "runtime error: invalid memory address or nil pointer dereference"
    ∧ searchFunc none (some (.value ⟨.str "a"⟩))
        = .error "runtime error: invalid memory address or nil pointer dereference"
    ∧ searchFunc (some (.value ⟨.str "a"⟩)) none
        = .error "runtime error: invalid memory address or nil pointer dereference" :=
  ⟨rfl, rfl, rfl, rfl⟩

/-- C9 counterexample: a bare function call whose result is a Value holding
an empty array or empty object is truthy in the code (the Go switch's
default branch returns true), while the claim calls empty collections
falsy. -/
theorem empty_collection_truthy_c9_counterexample :
    functionResultTestFilter (some (.value ⟨.arr []⟩)) = true
    ∧ truthyValueSpec (.arr []) = false
    ∧ functionResultTestFilter (some (.value ⟨.obj []⟩)) = true
    ∧ truthyValueSpec (.obj []) = false :=
  ⟨rfl, rfl, rfl, rfl⟩

/-- C9 as amended: a bare function call is truthy iff its result is Nodes
and non-empty, or Logical and true, or Value whose underlying value is
truthy — where nil, false and zero numbers are falsy and every string,
array and object (empty ones included) is truthy. -/
theorem function_testFilter_amended_c9 :
    (∀ (ns : List JVal), functionResultTestFilter (some (.nodes ns)) = !ns.isEmpty)
    ∧ (∀ (b : Bool), functionResultTestFilter (some (.logical b)) = b)
    ∧ (∀ (vt : ValueType), functionResultTestFilter (some (.value vt)) = truthyValueAmended vt.any)
    ∧ functionResultTestFilter none = false := by
  refine ⟨fun ns => ?_, fun b => rfl, fun vt => ?_, rfl⟩
  · cases ns <;> simp [functionResultTestFilter]
  · obtain ⟨v⟩ := vt
    cases v <;> rfl

/-- C10: a LogicalAndExpr with zero subexpressions is vacuously true, a
LogicalOrExpr with zero subexpressions is vacuously false, and a Filter
built from an empty LogicalOrExpr selects nothing from any value. -/
theorem empty_and_or_filter_c10 :
    (∀ (current root : JVal), LogicalAndExpr.testFilter [] current root = true)
    ∧ (∀ (current root : JVal), LogicalOrExpr.testFilter [] current root = false)
    ∧ (∀ (current root : JVal), filterSelect [] current root = []) := by
  refine ⟨fun _ _ => rfl, fun _ _ => rfl, fun current root => ?_⟩
  cases current <;> simp [filterSelect, LogicalOrExpr.testFilter]

/-- C4 evaluation at the failing input: the anchors are concatenated
around the pattern before parsing, so for the top-level alternation
pattern "a|b" the built regex is `\Aa|b\z`, which matches "ab" (its prefix
"a" matches the left alternative), while a full anchored match of "a|b"
against "ab" is false; on the one-letter strings the two agree. -/
theorem match_alternation_unanchored_c4 :
    matchFunc (some (.value ⟨.str "ab"⟩)) (some (.value ⟨.str "a|b"⟩)) = .ok (.logical true)
    ∧ fullMatchSpec "a|b" "ab" = some false
    ∧ fullMatchSpec "a|b" "a" = some true
    ∧ fullMatchSpec "a|b" "b" = some true :=
  ⟨rfl, rfl, rfl, rfl⟩

theorem bounds_defaults_neg1 (n : Nat) :
    (SliceSelector.mk none none (-1)).bounds n = (-1, (n : Int) - 1) := by
  have h0 : (0 : Int) ≤ (n : Int) := Int.natCast_nonneg n
  simp only [SliceSelector.bounds, clampIdx, Option.map_none', Option.getD_none]
  norm_num

theorem stepDownFrom_neg1 (n : Nat) :
    stepDownFrom (n + 1) ((n : Int) - 1) (-1) (-1)
      = (List.range n).reverse.map Int.ofNat := by
  induction n with
  | zero => simp [stepDownFrom]
  | succ m ih =>
    rw [stepDownFrom]
    have hgt : ((m + 1 : Nat) : Int) - 1 > -1 := by omega
    rw [if_pos hgt]
    have harg : ((m + 1 : Nat) : Int) - 1 + -1 = (m : Int) - 1 := by omega
    have hhead : ((m + 1 : Nat) : Int) - 1 = Int.ofNat m := by
      rw [Int.ofNat_eq_natCast]
      omega
    rw [harg, ih, hhead, List.range_succ]
    simp

theorem map_getD_range (elems : List JVal) :
    (List.range elems.length).map (fun k => elems[k]?.getD JVal.null) = elems := by
  induction elems with
  | nil => simp
  | cons x rest ih =>
    rw [List.length_cons, List.range_succ_eq_map, List.map_cons, List.map_map]
    have hcomp : ((fun k => (x :: rest)[k]?.getD JVal.null) ∘ Nat.succ)
        = fun k => rest[k]?.getD JVal.null := by
      funext k
      simp [Function.comp, List.getElem?_cons_succ]
    rw [hcomp, ih]
    simp [List.getElem?_cons_zero]

theorem slice_neg1_reverse (elems : List JVal) :
    (SliceSelector.mk none none (-1)).Select (.arr elems) = elems.reverse := by
  have hb := bounds_defaults_neg1 elems.length
  simp only [SliceSelector.Select, hb]
  norm_num
  rw [stepDownFrom_neg1 elems.length, List.map_map]
  have hcomp : ((fun i : Int => elems[i.toNat]?.getD JVal.null) ∘ Int.ofNat)
      = fun k : Nat => elems[k]?.getD JVal.null := funext fun k => rfl
  rw [hcomp, List.map_reverse, map_getD_range]

theorem slice_step_zero (st en : Option Int) (current : JVal) :
    (SliceSelector.mk st en 0).Select current = [] := by
  cases current <;> simp [SliceSelector.Select]

/-- C2: slice semantics — a zero step selects nothing; the all-defaults
step -1 slice has bounds `(-1, n-1)` on length n and selects the whole
array in reverse; and the bounds formula and iteration reproduce every
lower/upper pair and extraction pinned by TestSliceBounds
(src/unnamed/part_000 lines 147-276). -/
theorem slice_semantics_c2 :
    (∀ (st en : Option Int) (current : JVal), (SliceSelector.mk st en 0).Select current = [])
    ∧ (∀ (n : Nat), (SliceSelector.mk none none (-1)).bounds n = (-1, (n : Int) - 1))
    ∧ (∀ (elems : List JVal),
        (SliceSelector.mk none none (-1)).Select (.arr elems) = elems.reverse)
    ∧ (SliceSelector.mk none none 1).bounds 10 = (0, 10)
    ∧ (SliceSelector.mk none none 1).bounds 3 = (0, 3)
    ∧ (SliceSelector.mk none none 1).bounds 99 = (0, 99)
    ∧ (SliceSelector.mk none none 0).bounds 10 = (0, 0)
    ∧ (SliceSelector.mk none none 0).bounds 3 = (0, 0)
    ∧ (SliceSelector.mk none none 0).bounds 99 = (0, 0)
    ∧ (SliceSelector.mk (some 3) (some 8) 2).bounds 10 = (3, 8)
    ∧ (SliceSelector.mk (some 3) (some 8) 2).bounds 3 = (3, 3)
    ∧ (SliceSelector.mk (some 3) (some 8) 2).bounds 99 = (3, 8)
    ∧ (SliceSelector.mk (some 1) (some 3) 1).bounds 10 = (1, 3)
    ∧ (SliceSelector.mk (some 1) (some 3) 1).bounds 2 = (1, 2)
    ∧ (SliceSelector.mk (some 1) (some 3) 1).bounds 99 = (1, 3)
    ∧ (SliceSelector.mk (some 5) none 1).bounds 10 = (5, 10)
    ∧ (SliceSelector.mk (some 5) none 1).bounds 8 = (5, 8)
    ∧ (SliceSelector.mk (some 5) none 1).bounds 99 = (5, 99)
    ∧ (SliceSelector.mk (some 1) (some 5) 2).bounds 10 = (1, 5)
    ∧ (SliceSelector.mk (some 1) (some 5) 2).bounds 4 = (1, 4)
    ∧ (SliceSelector.mk (some 1) (some 5) 2).bounds 99 = (1, 5)
    ∧ (SliceSelector.mk (some 5) (some 1) (-2)).bounds 10 = (1, 5)
    ∧ (SliceSelector.mk (some 5) (some 1) (-2)).bounds 4 = (1, 3)
    ∧ (SliceSelector.mk (some 5) (some 1) (-2)).bounds 99 = (1, 5)
    ∧ (SliceSelector.mk none none (-1)).bounds 10 = (-1, 9)
    ∧ (SliceSelector.mk none none (-1)).bounds 4 = (-1, 3)
    ∧ (SliceSelector.mk none none (-1)).bounds 99 = (-1, 98)
    ∧ (SliceSelector.mk none none 1).Select sliceTestArray
        = [.str "a", .str "b", .str "c", .str "d", .str "e", .str "f", .str "g"]
    ∧ (SliceSelector.mk none none 0).Select sliceTestArray = []
    ∧ (SliceSelector.mk (some 3) (some 8) 2).Select sliceTestArray = [.str "d", .str "f"]
    ∧ (SliceSelector.mk (some 1) (some 3) 1).Select sliceTestArray = [.str "b", .str "c"]
    ∧ (SliceSelector.mk (some 5) none 1).Select sliceTestArray = [.str "f", .str "g"]
    ∧ (SliceSelector.mk (some 1) (some 5) 2).Select sliceTestArray = [.str "b", .str "d"]
    ∧ (SliceSelector.mk (some 5) (some 1) (-2)).Select sliceTestArray = [.str "f", .str "d"]
    ∧ (SliceSelector.mk none none (-1)).Select sliceTestArray
        = [.str "g", .str "f", .str "e", .str "d", .str "c", .str "b", .str "a"] :=
  ⟨slice_step_zero, bounds_defaults_neg1, slice_neg1_reverse,
   rfl, rfl, rfl, rfl, rfl, rfl, rfl, rfl, rfl, rfl, rfl, rfl, rfl, rfl, rfl,
   rfl, rfl, rfl, rfl, rfl, rfl, rfl, rfl, rfl,
   rfl, rfl, rfl, rfl, rfl, rfl, rfl, rfl⟩

theorem select_eq_directStep (sel : NISelector) (v : JVal) :
    sel.select v = (directStep sel v).toList := by
  cases sel with
  | name s =>
    cases v
    case obj members =>
      cases h : lookupMember s members <;>
        simp [NISelector.select, nameSelect, directStep, h]
    all_goals rfl
  | index i =>
    cases v
    case arr elems =>
      simp only [NISelector.select, indexSelect, directStep]
      by_cases h0 : (0 : Int) ≤ if i ≥ 0 then i else (elems.length : Int) + i
      · by_cases hlt : (if i ≥ 0 then i else (elems.length : Int) + i) < (elems.length : Int)
        · rw [if_pos ⟨h0, hlt⟩, if_pos h0]
          have hjn : (if i ≥ 0 then i else (elems.length : Int) + i).toNat < elems.length := by
            omega
          rw [List.getD_eq_getElem _ _ hjn, List.getElem?_eq_getElem hjn]
          rfl
        · rw [if_neg (fun hc => hlt hc.2), if_pos h0]
          rw [List.getElem?_eq_none (by omega)]
          rfl
      · rw [if_neg (fun hc => h0 hc.1), if_neg h0]
        rfl
    all_goals rfl

theorem sqWalk_foldlM (sels : List NISelector) (t : JVal) :
    sqWalk sels t = List.foldlM (fun v sel => directStep sel v) t sels := by
  induction sels generalizing t with
  | nil => rfl
  | cons sel rest ih =>
    rw [sqWalk, List.foldlM_cons, select_eq_directStep]
    cases h : directStep sel t <;> simp [h, ih]

theorem sqWalk_none_iff (sels : List NISelector) (t : JVal) :
    sqWalk sels t = none ↔
      ∃ pre sel post, sels = pre ++ sel :: post ∧
        ∃ w, sqWalk pre t = some w ∧ sel.select w = [] := by
  induction sels generalizing t with
  | nil =>
    simp only [sqWalk]
    constructor
    · intro h
      exact absurd h (by simp)
    · rintro ⟨pre, sel, post, hs, -⟩
      exact absurd hs (by simp)
  | cons sel rest ih =>
    cases h : sel.select t with
    | nil =>
      simp only [sqWalk, h]
      constructor
      · intro _
        exact ⟨[], sel, rest, rfl, t, rfl, h⟩
      · intro _
        trivial
    | cons x xs =>
      rw [sqWalk, h]
      rw [ih x]
      constructor
      · rintro ⟨pre, sel2, post, hs, w, hw, hsel⟩
        refine ⟨sel :: pre, sel2, post, by rw [hs, List.cons_append], w, ?_, hsel⟩
        rw [sqWalk, h]
        exact hw
      · rintro ⟨pre, sel2, post, hs, w, hw, hsel⟩
        cases pre with
        | nil =>
          simp only [List.nil_append] at hs
          injection hs with h1 h2
          subst h1
          subst h2
          simp only [sqWalk] at hw
          injection hw with hw2
          subst hw2
          rw [h] at hsel
          simp at hsel
        | cons selh pret =>
          rw [List.cons_append] at hs
          injection hs with h1 h2
          subst h1
          rw [sqWalk, h] at hw
          exact ⟨pret, sel2, post, h2, w, hw, hsel⟩

/-- C8: a singular query walks its Name/Index selectors from the designated
root value; its result is exactly the fold of direct single-member access
over the chain, it holds at most one node, and it is *nothing* precisely
when some selector in the chain selects zero nodes on the value reached by
the preceding prefix. -/
theorem singular_query_semantics_c8 :
    ∀ (sq : SingularPathQuery) (current root : JVal),
      (sq.execute current root
          = List.foldlM (fun v sel => directStep sel v)
              (if sq.relative then current else root) sq.selectors)
      ∧ (sq.execute current root).toList.length ≤ 1
      ∧ (sq.execute current root = none ↔
          ∃ pre sel post, sq.selectors = pre ++ sel :: post ∧
            ∃ w, sqWalk pre (if sq.relative then current else root) = some w
              ∧ sel.select w = []) := by
  intro sq current root
  refine ⟨sqWalk_foldlM _ _, ?_, sqWalk_none_iff _ _⟩
  cases h : sq.execute current root <;> simp [h]

theorem concatMap_append (f : α → List β) (l1 l2 : List α) :
    concatMap f (l1 ++ l2) = concatMap f l1 ++ concatMap f l2 := by
  induction l1 with
  | nil => rfl
  | cons a rest ih => simp [concatMap, ih, List.append_assoc]

theorem concatMap_concatMap (f : α → List β) (g : β → List γ) (l : List α) :
    concatMap g (concatMap f l) = concatMap (fun a => concatMap g (f a)) l := by
  induction l with
  | nil => rfl
  | cons a rest ih => simp [concatMap, concatMap_append, ih]

theorem concatMap_congr {f g : α → List β} {l : List α} (h : ∀ a ∈ l, f a = g a) :
    concatMap f l = concatMap g l := by
  induction l with
  | nil => rfl
  | cons a rest ih =>
    rw [concatMap, concatMap, h a (List.mem_cons_self a rest),
      ih fun b hb => h b (List.mem_cons_of_mem a hb)]

theorem concatMap_map (f : α → β) (g : β → List γ) (l : List α) :
    concatMap g (l.map f) = concatMap (fun a => g (f a)) l := by
  induction l with
  | nil => rfl
  | cons a rest ih => simp [concatMap, ih]

theorem descendList_concatMap (s : Segment) (elems : List JVal) (root : JVal) :
    Segment.descendList s elems root = concatMap (fun v => Segment.Select s v root) elems := by
  induction elems with
  | nil => simp [Segment.descendList, concatMap]
  | cons v rest ih => simp [Segment.descendList, concatMap, ih]

theorem descendMembers_concatMap (s : Segment) (members : List (String × JVal)) (root : JVal) :
    Segment.descendMembers s members root
      = concatMap (fun m => Segment.Select s m.2 root) members := by
  induction members with
  | nil => simp [Segment.descendMembers, concatMap]
  | cons m rest ih =>
    obtain ⟨k, v⟩ := m
    simp [Segment.descendMembers, concatMap, ih]

theorem preorderList_concatMap (elems : List JVal) :
    preorderList elems = concatMap preorder elems := by
  induction elems with
  | nil => simp [preorderList, concatMap]
  | cons v rest ih => simp [preorderList, concatMap, ih]

theorem preorderMembers_concatMap (members : List (String × JVal)) :
    preorderMembers members = concatMap (fun m => preorder m.2) members := by
  induction members with
  | nil => simp [preorderMembers, concatMap]
  | cons m rest ih =>
    obtain ⟨k, v⟩ := m
    simp [preorderMembers, concatMap, ih]

theorem descend_children (sels : List SelectorI) (current root : JVal) :
    Segment.descend ⟨sels, true⟩ current root
      = concatMap (fun v => Segment.Select ⟨sels, true⟩ v root) current.children := by
  cases current <;>
    simp [Segment.descend, JVal.children, descendList_concatMap, descendMembers_concatMap,
      concatMap, concatMap_map]

theorem preorderChildren_children (v : JVal) :
    preorderChildren v = concatMap preorder v.children := by
  cases v <;>
    simp [preorderChildren, JVal.children, preorderList_concatMap, preorderMembers_concatMap,
      concatMap, concatMap_map]

theorem children_sizeOf_lt (c v : JVal) (hv : v ∈ c.children) : sizeOf v < sizeOf c := by
  cases c with
  | arr elems =>
    simp only [JVal.children] at hv
    have h1 := List.sizeOf_lt_of_mem hv
    rw [JVal.arr.sizeOf_spec]
    omega
  | obj members =>
    simp only [JVal.children] at hv
    obtain ⟨⟨k, v2⟩, hm, hv2⟩ := List.mem_map.mp hv
    cases hv2
    have h1 := List.sizeOf_lt_of_mem hm
    have h2 : sizeOf (k, v2) = 1 + sizeOf k + sizeOf v2 := by simp
    have h3 : sizeOf ((k, v2).2) = sizeOf v2 := rfl
    rw [JVal.obj.sizeOf_spec]
    omega
  | null => simp [JVal.children] at hv
  | bool b => simp [JVal.children] at hv
  | int n => simp [JVal.children] at hv
  | float q => simp [JVal.children] at hv
  | str s => simp [JVal.children] at hv

theorem descendant_preorder_aux (sels : List SelectorI) (root : JVal) :
    ∀ (n : Nat) (current : JVal), sizeOf current ≤ n →
      Segment.Select ⟨sels, true⟩ current root
        = concatMap (fun v => applySelectors sels v root) (preorder current) := by
  intro n
  induction n with
  | zero =>
    intro c hc
    exact absurd hc (by cases c <;> simp)
  | succ n ih =>
    intro c hc
    rw [Segment.Select, preorder, concatMap]
    simp only [if_true]
    congr 1
    rw [descend_children, preorderChildren_children, concatMap_concatMap]
    apply concatMap_congr
    intro v hv
    have hlt := children_sizeOf_lt c v hv
    exact ih v (by omega)

/-- C3: a descendant Segment.Select first applies the segment's selectors
(in selector order) to the current value, then recurses into each member
of the current value via descend, and the total result is the pre-order
concatenation of the per-node selector results over the pre-order
traversal of the current value. -/
theorem descendant_segment_preorder_c3 :
    (∀ (sels : List SelectorI) (current root : JVal),
      Segment.Select ⟨sels, true⟩ current root
        = applySelectors sels current root ++ Segment.descend ⟨sels, true⟩ current root)
    ∧ (∀ (sels : List SelectorI) (current root : JVal),
      Segment.descend ⟨sels, true⟩ current root
        = concatMap (fun v => Segment.Select ⟨sels, true⟩ v root) current.children)
    ∧ (∀ (sels : List SelectorI) (current root : JVal),
      Segment.Select ⟨sels, true⟩ current root
        = concatMap (fun v => applySelectors sels v root) (preorder current)) := by
  refine ⟨fun sels current root => ?_, fun sels current root => descend_children sels current root,
    fun sels current root => descendant_preorder_aux sels root (sizeOf current) current le_rfl⟩
  rw [Segment.Select]
  simp

theorem digits_shape (cs : List Char) (h : isJSONIntDigits cs = true) :
    (!cs.isEmpty && cs.all Char.isDigit) = true := by
  cases cs with
  | nil => simp [isJSONIntDigits] at h
  | cons c rest =>
    simp only [isJSONIntDigits, Bool.or_eq_true, Bool.and_eq_true, beq_iff_eq, bne_iff_ne,
      List.isEmpty_iff] at h
    rcases h with ⟨hc, hrest⟩ | ⟨⟨hd, _⟩, hall⟩
    · subst hc
      subst hrest
      decide
    · simp [hd, hall]

theorem strconv_on_shape (cs : List Char) (h : intTokenShape cs = true) :
    strconvParseIntL cs =
      if intTokenValL cs < -(2 ^ 63) ∨ intTokenValL cs > 2 ^ 63 - 1 then .error .outOfRange
      else .ok (intTokenValL cs) := by
  cases cs with
  | nil => simp [intTokenShape] at h
  | cons c rest =>
    have hokval : goIntShapeOk (c :: rest) = true
        ∧ goSignedVal (c :: rest) = intTokenValL (c :: rest) := by
      by_cases hc : c = '-'
      · subst hc
        rw [intTokenShape, if_pos rfl] at h
        have hshape := digits_shape rest h
        simp only [Bool.and_eq_true, Bool.not_eq_true'] at hshape
        constructor
        · rw [goIntShapeOk, if_pos (Or.inl rfl)]
          simp [hshape.1, hshape.2]
        · simp [goSignedVal, intTokenValL]
      · rw [intTokenShape, if_neg hc] at h
        have hshape := digits_shape (c :: rest) h
        simp only [List.isEmpty_cons, Bool.not_false, Bool.true_and, List.all_cons,
          Bool.and_eq_true] at hshape
        have hplus : c ≠ '+' := by
          intro he
          subst he
          simp at hshape
        constructor
        · rw [goIntShapeOk, if_neg (fun hor => hor.elim hc hplus)]
          simp [hshape.1, hshape.2]
        · simp [goSignedVal, intTokenValL, hc, hplus]
    unfold strconvParseIntL
    rw [if_pos hokval.1, hokval.2]

theorem parsePathInt_char (tok : Token) (htok : isIntegerToken tok.val = true)
    (h0 : tok.val ≠ "-0") :
    parsePathInt tok =
      if tokenIntVal tok.val < -(2 ^ 63) ∨ tokenIntVal tok.val > 2 ^ 63 - 1 then
        .error (makeErrorMsg tok ("cannot parse " ++ quoteGo tok.val ++ ", value out of range"))
      else if tokenIntVal tok.val > 2 ^ 53 - 1 ∨ tokenIntVal tok.val < -(2 ^ 53) + 1 then
        .error (makeErrorMsg tok ("cannot parse " ++ quoteGo tok.val ++ ", value out of range"))
      else .ok (tokenIntVal tok.val) := by
  rw [parsePathInt, if_neg h0]
  rw [show strconvParseInt tok.val = strconvParseIntL tok.val.toList from rfl,
    strconv_on_shape tok.val.toList htok]
  have hv : tokenIntVal tok.val = intTokenValL tok.val.toList := rfl
  rw [← hv]
  by_cases h63 : tokenIntVal tok.val < -(2 ^ 63) ∨ tokenIntVal tok.val > 2 ^ 63 - 1
  · rw [if_pos h63, if_pos h63]
  · rw [if_neg h63, if_neg h63]

/-- C7: for every lexer integer token, parsePathInt fails exactly on the
text "-0" — with the pinned message and 1-based position — and on values
outside `[-(2^53)+1, 2^53-1]`; every other in-range integer token parses
to its value. -/
theorem parsePathInt_range_c7 :
    ∀ (tok : Token), isIntegerToken tok.val = true →
      ((tok.val = "-0" →
          parsePathInt tok
            = .error ("jsonpath: invalid integer path value \"-0\" at position "
                ++ toString (tok.pos + 1)))
        ∧ ((tokenIntVal tok.val > 2 ^ 53 - 1 ∨ tokenIntVal tok.val < -(2 ^ 53) + 1) →
            ∃ e, parsePathInt tok = .error e)
        ∧ (tok.val ≠ "-0" → -(2 ^ 53) + 1 ≤ tokenIntVal tok.val →
            tokenIntVal tok.val ≤ 2 ^ 53 - 1 →
            parsePathInt tok = .ok (tokenIntVal tok.val))) := by
  intro tok htok
  refine ⟨fun h0 => ?_, fun hrange => ?_, fun h0 hlo hhi => ?_⟩
  · rw [parsePathInt, if_pos h0, h0]
    rw [makeErrorMsg, quoteGo]
    congr 1
  · by_cases h0 : tok.val = "-0"
    · exact ⟨_, by rw [parsePathInt, if_pos h0]⟩
    · by_cases h1 : tokenIntVal tok.val < -(2 ^ 63) ∨ tokenIntVal tok.val > 2 ^ 63 - 1
      · exact ⟨_, by rw [parsePathInt_char tok htok h0, if_pos h1]⟩
      · exact ⟨_, by rw [parsePathInt_char tok htok h0, if_neg h1, if_pos hrange]⟩
  · rw [parsePathInt_char tok htok h0]
    rw [if_neg (by omega), if_neg (by omega)]

/-- Witness for C7 at the concrete token of the spec scenario: the text
"-0" at 0-based position 2 is an integer token and parsing it fails with
the pinned message at 1-based position 3. -/
theorem parsePathInt_range_c7_witness :
    parsePathInt ⟨"-0", 2⟩
      = .error "jsonpath: invalid integer path value \"-0\" at position 3" := by
  have h := (parsePathInt_range_c7 ⟨"-0", 2⟩ (by decide)).1 rfl
  simpa using h

end JsonPath
